import Mathlib

/-!
# Verification of the scheduled search-agent handler

Shallow embedding of the handler module: the text-extraction tool
(`browse_website`), the notification-dispatch tool (`send_notification`) and
the run controller (`lambda_handler`).  Strings are modelled as `List Char`;
the external world (HTTP fetches, secret store, messaging endpoint, the
model runtime) is modelled by explicit oracle inputs, and outbound network
activity is recorded in explicit effect lists.
-/

/-! ## Character classes used by the source's text cleaning

The cleaning step of the extraction tool runs, over the extracted document
text: `splitlines`, per-line `strip`, per-line split on a two-space
separator, per-phrase `strip`, and a single-space join of the non-empty
phrases.  `lineBreakCodes` lists the code points the runtime's `splitlines`
treats as line boundaries; `pySpaceCodes` lists the code points its `strip`
removes at either end of a string.
-/

def lineBreakCodes : List Nat :=
  [0x0a, 0x0b, 0x0c, 0x0d, 0x1c, 0x1d, 0x1e, 0x85, 0x2028, 0x2029]

def isLineBreak (c : Char) : Bool := lineBreakCodes.contains c.toNat

def pySpaceCodes : List Nat :=
  [0x09, 0x0a, 0x0b, 0x0c, 0x0d, 0x1c, 0x1d, 0x1e, 0x1f, 0x20, 0x85, 0xa0,
   0x1680, 0x2000, 0x2001, 0x2002, 0x2003, 0x2004, 0x2005, 0x2006, 0x2007,
   0x2008, 0x2009, 0x200a, 0x2028, 0x2029, 0x202f, 0x205f, 0x3000]

def isPySpace (c : Char) : Bool := pySpaceCodes.contains c.toNat

/-- `text.splitlines()` worker: `acc` holds the current line reversed. -/
def splitAux (acc : List Char) : List Char → List (List Char)
  | [] => [acc.reverse]
  | [c] => if isLineBreak c then [acc.reverse] else [(c :: acc).reverse]
  | c :: d :: rest =>
      if isLineBreak c then
        if c = '\r' ∧ d = '\n' then
          if rest.isEmpty then [acc.reverse] else acc.reverse :: splitAux [] rest
        else acc.reverse :: splitAux [] (d :: rest)
      else splitAux (c :: acc) (d :: rest)

/-- `text.splitlines()`: the empty string yields no lines, and a trailing
line boundary does not open a final empty line. -/
def splitlines : List Char → List (List Char)
  | [] => []
  | c :: rest => splitAux [] (c :: rest)

/-- `s.strip()`: drop leading and trailing whitespace. -/
def strip (l : List Char) : List Char :=
  ((l.dropWhile isPySpace).reverse.dropWhile isPySpace).reverse

/-- Prepend a character to the first piece of a split result. -/
def consHead (c : Char) : List (List Char) → List (List Char)
  | [] => [[c]]
  | p :: ps => (c :: p) :: ps

/-- `line.split("  ")`: split on each non-overlapping two-space occurrence,
scanning left to right. -/
def splitOnDS : List Char → List (List Char)
  | [] => [[]]
  | [c] => [[c]]
  | c :: d :: rest =>
      if c = ' ' ∧ d = ' ' then [] :: splitOnDS rest
      else consHead c (splitOnDS (d :: rest))

/-- The whitespace-cleaning pipeline of the extraction tool, lines 45-47 of
the source. -/
def cleanText (t : List Char) : List Char :=
  let lines := (splitlines t).map strip
  let chunks := ((lines.map splitOnDS).flatten).map strip
  List.intercalate [' '] (chunks.filter (fun c => !c.isEmpty))

/-- The length bound of the extraction tool, lines 49-52 of the source. -/
def limitText (t : List Char) : List Char :=
  if 8000 < t.length then t.take 8000 else t

/-! ## The parsed document and the markup-removal step -/

/-- A parsed HTML document fragment, written as a first-order forest:
`text s rest` is a navigable string followed by its right siblings, and
`elem tag children rest` is an element with its child forest followed by
its right siblings. -/
inductive HForest where
  | nil : HForest
  | text : List Char → HForest → HForest
  | elem : List Char → HForest → HForest → HForest

/-- Tags whose elements the source decomposes before text extraction. -/
def isStripTag (tag : List Char) : Bool :=
  tag = "script".toList || tag = "style".toList

/-- `script.decompose()` over every script/style element of the soup:
delete those subtrees entirely. -/
def pruneF : HForest → HForest
  | .nil => .nil
  | .text s rest => .text s (pruneF rest)
  | .elem tag cs rest =>
      if isStripTag tag then pruneF rest
      else .elem tag (pruneF cs) (pruneF rest)

/-- `soup.get_text()`: concatenate every navigable string of the forest. -/
def getTextF : HForest → List Char
  | .nil => []
  | .text s rest => s ++ getTextF rest
  | .elem _ cs rest => getTextF cs ++ getTextF rest

/-- Text collection that skips script/style subtrees outright; used to state
that decomposition excludes their content from the extracted text. -/
def getTextSkipF : HForest → List Char
  | .nil => []
  | .text s rest => s ++ getTextSkipF rest
  | .elem tag cs rest =>
      if isStripTag tag then getTextSkipF rest
      else getTextSkipF cs ++ getTextSkipF rest

/-! ## The text extraction tool -/

/-- The outcome the HTTP layer hands to `requests.get`: a response with a
status code, a reason phrase and a parsed document, or a raised
request-layer exception carrying its rendered detail. -/
structure FetchResponse where
  status : Nat
  reason : List Char
  doc : HForest

inductive FetchResult where
  | ok : FetchResponse → FetchResult
  | requestException : List Char → FetchResult

/-- `response.raise_for_status()` raises exactly for status codes in
`[400, 600)`. -/
def badStatus (status : Nat) : Bool := 400 ≤ status && status < 600

/-- The rendered detail of the `HTTPError` that `raise_for_status` builds. -/
def httpErrorDetail (status : Nat) (reason url : List Char) : List Char :=
  if status < 500 then
    (Nat.repr status).toList ++ " Client Error: ".toList ++ reason
      ++ " for url: ".toList ++ url
  else
    (Nat.repr status).toList ++ " Server Error: ".toList ++ reason
      ++ " for url: ".toList ++ url

/-- The failure string built on line 58 of the source. -/
def browseErrMsg (url detail : List Char) : List Char :=
  "❌ Error browsing ".toList ++ url ++ ": ".toList ++ detail

/-- The success branch of the extraction tool: decompose script/style,
collect text, clean whitespace, bound the length. -/
def successText (doc : HForest) : List Char :=
  limitText (cleanText (getTextF (pruneF doc)))

/-- `browse_website` (source lines 15-60), as a function of the URL and of
the HTTP layer's outcome. -/
def browse_website (url : List Char) (fetch : FetchResult) : List Char :=
  match fetch with
  | .requestException e => browseErrMsg url e
  | .ok resp =>
      if badStatus resp.status then
        browseErrMsg url (httpErrorDetail resp.status resp.reason url)
      else successText resp.doc

/-! ## The notification dispatch tool

The tool reads `SECRETS_ARN` from the environment, fetches and decodes the
credential bundle from the secret store, and POSTs the message to the
Telegram `sendMessage` endpoint.  The environment and the two external
calls are oracle inputs; the outbound calls actually performed are
returned as an effect list.
-/

/-- The decoded credential bundle: `TELEGRAM_TOKEN`, `TELEGRAM_CHAT_ID`. -/
structure Creds where
  telegramToken : List Char
  telegramChatId : List Char

/-- What the secret store would do if called: hand back a decoded bundle,
or raise (covering fetch, JSON decoding and key lookup failures), with the
exception's rendered detail. -/
inductive SecretOutcome where
  | ok : Creds → SecretOutcome
  | raised : List Char → SecretOutcome

/-- What the messaging endpoint would do if called: answer with a status
code and reason phrase, or raise at the network layer. -/
inductive PostOutcome where
  | ok : Nat → List Char → PostOutcome
  | raised : List Char → PostOutcome

structure NotifEnv where
  secretsArn : Option (List Char)
  secret : SecretOutcome
  post : PostOutcome

/-- The delivery request built for `requests.post`, source lines 86-94. -/
structure PostRequest where
  url : List Char
  chatId : List Char
  text : List Char
  parseMode : List Char
  disableWebPagePreview : Bool
  timeout : Nat

/-- An outbound network call of the dispatch tool. -/
inductive NetEffect where
  | getSecretValue : List Char → NetEffect
  | httpPost : PostRequest → NetEffect

def telegramUrl (token : List Char) : List Char :=
  "https://api.telegram.org/bot".toList ++ token ++ "/sendMessage".toList

def noArnMsg : List Char :=
  "❌ No SECRETS_ARN environment variable found".toList

def notifErrMsg (detail : List Char) : List Char :=
  "❌ Error sending notification: ".toList ++ detail

def notifOkMsg : List Char := "Notification sent successfully".toList

/-- `send_notification` (source lines 62-103): returns the tool's result
string together with the outbound network calls it performed. -/
def send_notification (message : List Char) (env : NotifEnv) :
    List Char × List NetEffect :=
  match env.secretsArn with
  | none => (noArnMsg, [])
  | some arn =>
      if arn.isEmpty then (noArnMsg, [])
      else
        match env.secret with
        | .raised e => (notifErrMsg e, [.getSecretValue arn])
        | .ok creds =>
            let req : PostRequest :=
              ⟨telegramUrl creds.telegramToken, creds.telegramChatId,
               message, "Markdown".toList, false, 10⟩
            match env.post with
            | .raised e =>
                (notifErrMsg e, [.getSecretValue arn, .httpPost req])
            | .ok status reason =>
                if badStatus status then
                  (notifErrMsg (httpErrorDetail status reason req.url),
                   [.getSecretValue arn, .httpPost req])
                else (notifOkMsg, [.getSecretValue arn, .httpPost req])

/-! ## The run controller -/

/-- What one orchestrator session would do: return the final result text
(`str(result)`), or raise with detail `str(e)`.  Construction of the model
client and of the orchestrator happens inside the same `try`, so their
failures are also `raised`. -/
inductive AgentOutcome where
  | ok : List Char → AgentOutcome
  | raised : List Char → AgentOutcome

structure HandlerEnv where
  agent : AgentOutcome
  notifEnv : NotifEnv

/-- A JSON value, as produced for the response body. -/
inductive JVal where
  | str : List Char → JVal
  | obj : List (List Char × JVal) → JVal

/-- The structured status payload the trigger caller receives. -/
structure Payload where
  statusCode : Nat
  body : JVal

/-- One invocation of the dispatch tool by the controller: the message
passed in, and the string the tool returned. -/
inductive RunEffect where
  | notifyAttempt : List Char → List Char → RunEffect

/-- The best-effort completion message, source line 169. -/
def successNote : List Char :=
  ("✅ OP-1 Search Completed Successfully\n\nSearch finished without errors. "
    ++ "Check logs for details about any matches found.").toList

/-- The best-effort failure message, source line 187. -/
def failNote (e : List Char) : List Char :=
  "🚨 OP-1 Finder Error: ".toList ++ e

def okBodyMsg : List Char := "OP-1 search completed successfully".toList

/-- `lambda_handler` (source lines 141-194): returns the status payload
together with the dispatch-tool invocations it made. -/
def lambda_handler (env : HandlerEnv) : Payload × List RunEffect :=
  match env.agent with
  | .ok result =>
      let n := send_notification successNote env.notifEnv
      (⟨200, .obj [("message".toList, .str okBodyMsg),
                   ("result".toList, .str result)]⟩,
       [.notifyAttempt successNote n.1])
  | .raised e =>
      let n := send_notification (failNote e) env.notifEnv
      (⟨500, .obj [("error".toList, .str e)]⟩,
       [.notifyAttempt (failNote e) n.1])

/-! ## Small facts about the fixed message strings -/

/-- Every dispatch failure string carries the failure marker. -/
theorem errMarkerPre (e : List Char) : "❌ ".toList <+: notifErrMsg e :=
  ⟨"Error sending notification: ".toList ++ e, rfl⟩

theorem notifErr_ne_ok (e : List Char) : notifErrMsg e ≠ notifOkMsg := by
  intro h
  have h2 : some '❌' = some 'N' := congrArg List.head? h
  exact absurd (Option.some.inj h2) (by decide)

/-! ## C1, C4: the run controller -/

/-- C1: for every invocation of the run controller, a normal orchestrator
return yields status code 200 with a JSON body holding the success message
and the final result text, and an orchestrator exception yields status code
500 with a JSON body holding the error detail.  `lambda_handler` is a total
function of its oracle environment, so no exception escapes it. -/
theorem c1_controller_exit_contract (env : HandlerEnv) :
    (∀ r, env.agent = .ok r →
      (lambda_handler env).1 =
        ⟨200, .obj [("message".toList, .str okBodyMsg),
                    ("result".toList, .str r)]⟩) ∧
    (∀ e, env.agent = .raised e →
      (lambda_handler env).1 = ⟨500, .obj [("error".toList, .str e)]⟩) := by
  constructor
  · intro r h
    simp [lambda_handler, h]
  · intro e h
    simp [lambda_handler, h]

theorem c1_witness :
    (lambda_handler ⟨.ok "done".toList, ⟨none, .raised [], .raised []⟩⟩).1 =
      ⟨200, .obj [("message".toList, .str okBodyMsg),
                  ("result".toList, .str "done".toList)]⟩ ∧
    (lambda_handler ⟨.raised "boom".toList, ⟨none, .raised [], .raised []⟩⟩).1 =
      ⟨500, .obj [("error".toList, .str "boom".toList)]⟩ :=
  ⟨(c1_controller_exit_contract _).1 _ rfl,
   (c1_controller_exit_contract _).2 _ rfl⟩

/-- The final status message the controller hands to the dispatch tool. -/
def finalNoteMessage : AgentOutcome → List Char
  | .ok _ => successNote
  | .raised e => failNote e

/-- C4: every controller invocation attempts exactly one final status
notification — the completion note on success, the failure note carrying
the error detail otherwise — and the status payload does not depend on the
dispatch environment, so a failing secondary notification never changes
the returned payload. -/
theorem c4_final_status_attempt (agent : AgentOutcome) (ne ne' : NotifEnv) :
    (lambda_handler ⟨agent, ne⟩).2 =
      [.notifyAttempt (finalNoteMessage agent)
        ((send_notification (finalNoteMessage agent) ne).1)] ∧
    (lambda_handler ⟨agent, ne⟩).1 = (lambda_handler ⟨agent, ne'⟩).1 := by
  cases agent <;> simp [lambda_handler, finalNoteMessage]

/-! ## C2, C6: the dispatch tool boundary -/

/-- C2: for every message and every oracle environment, the dispatch tool
returns either the delivery confirmation string or a marker-carrying
failure string; being a total function, it never propagates a fault to the
orchestrator session. -/
theorem c2_dispatch_total_contract (message : List Char) (env : NotifEnv) :
    (send_notification message env).1 = notifOkMsg ∨
    "❌ ".toList <+: (send_notification message env).1 := by
  obtain ⟨arnOpt, sec, post⟩ := env
  cases arnOpt with
  | none =>
      right
      show "❌ ".toList <+: noArnMsg
      decide
  | some arn =>
      cases ha : arn.isEmpty with
      | true =>
          right
          simp only [send_notification, ha, if_true]
          decide
      | false =>
          cases sec with
          | raised e =>
              right
              simp only [send_notification, ha, Bool.false_eq_true, if_false]
              exact errMarkerPre e
          | ok creds =>
              cases post with
              | raised e =>
                  right
                  simp only [send_notification, ha, Bool.false_eq_true, if_false]
                  exact errMarkerPre e
              | ok status reason =>
                  cases hb : badStatus status with
                  | true =>
                      right
                      simp only [send_notification, ha, hb, Bool.false_eq_true,
                        if_false, if_true]
                      exact errMarkerPre _
                  | false =>
                      left
                      simp only [send_notification, ha, hb, Bool.false_eq_true,
                        if_false]

/-- C6: a dispatch call made with no configured secret reference returns
the immediate descriptive failure string and performs no outbound network
call at all. -/
theorem c6_missing_arn_no_network (message : List Char) (env : NotifEnv)
    (h : env.secretsArn = none) :
    send_notification message env = (noArnMsg, []) := by
  simp [send_notification, h]

theorem c6_witness :
    send_notification "m".toList ⟨none, .raised [], .raised []⟩ =
      (noArnMsg, []) :=
  c6_missing_arn_no_network _ _ rfl

/-! ## C8: the delivery request -/

/-- C8 counterexample: the claim requires a 2xx response for success, but
`raise_for_status` only raises for statuses in `[400, 600)`: a 304 answer
from the endpoint yields the success confirmation even though 304 is not a
2xx status. -/
theorem c8_counterexample :
    (send_notification "m".toList
        ⟨some "arn".toList, .ok ⟨"tok".toList, "chat".toList⟩,
         .ok 304 "Not Modified".toList⟩).1 = notifOkMsg ∧
    ¬(200 ≤ 304 ∧ 304 < 300) := by
  decide

/-- C8 amended: every dispatch call that reaches delivery (configured
non-empty secret reference, credentials resolved) performs exactly one
outbound HTTP POST — to the Telegram `sendMessage` endpoint built from the
token, with the chat id, the message text, Markdown parse mode, link
previews enabled and a timeout of 10 — after the one secret fetch; and it
returns the success confirmation exactly when the POST returns a response
whose status `raise_for_status` accepts, i.e. one outside `[400, 600)`
(every 2xx qualifies, but so do 1xx/3xx statuses). -/
theorem c8_delivery_contract (message arn token chatId : List Char)
    (env : NotifEnv) (harn : env.secretsArn = some arn)
    (hne : arn.isEmpty = false) (hsec : env.secret = .ok ⟨token, chatId⟩) :
    (send_notification message env).2 =
      [.getSecretValue arn,
       .httpPost ⟨telegramUrl token, chatId, message,
                  "Markdown".toList, false, 10⟩] ∧
    ((send_notification message env).1 = notifOkMsg ↔
      ∃ status reason, env.post = .ok status reason ∧
        badStatus status = false) := by
  cases hp : env.post with
  | raised e =>
      constructor
      · simp [send_notification, harn, hne, hsec, hp]
      · constructor
        · intro h
          simp only [send_notification, harn, hne, hsec, hp,
            Bool.false_eq_true, if_false] at h
          exact absurd h (notifErr_ne_ok e)
        · rintro ⟨s, r, hsr, _⟩
          cases hsr
  | ok status reason =>
      cases hb : badStatus status with
      | true =>
          constructor
          · simp [send_notification, harn, hne, hsec, hp, hb]
          · constructor
            · intro h
              simp only [send_notification, harn, hne, hsec, hp, hb,
                Bool.false_eq_true, if_false, if_true] at h
              exact absurd h (notifErr_ne_ok _)
            · rintro ⟨s, r, hsr, hbs⟩
              cases hsr
              simp [hb] at hbs
      | false =>
          constructor
          · simp [send_notification, harn, hne, hsec, hp, hb]
          · constructor
            · intro _
              exact ⟨status, reason, rfl, hb⟩
            · intro _
              simp [send_notification, harn, hne, hsec, hp, hb]

theorem c8_witness :
    (send_notification "m".toList
        ⟨some "a".toList, .ok ⟨"t".toList, "c".toList⟩,
         .ok 200 "OK".toList⟩).2 =
      [.getSecretValue "a".toList,
       .httpPost ⟨telegramUrl "t".toList, "c".toList, "m".toList,
                  "Markdown".toList, false, 10⟩] ∧
    ((send_notification "m".toList
        ⟨some "a".toList, .ok ⟨"t".toList, "c".toList⟩,
         .ok 200 "OK".toList⟩).1 = notifOkMsg ↔
      ∃ status reason,
        (NotifEnv.mk (some "a".toList) (.ok ⟨"t".toList, "c".toList⟩)
            (.ok 200 "OK".toList)).post = .ok status reason ∧
        badStatus status = false) :=
  c8_delivery_contract "m".toList "a".toList "t".toList "c".toList
    _ rfl (by decide) rfl

/-! ## C3, C10: the extraction tool boundary -/

/-- Whether the HTTP layer outcome makes `browse_website` take its failure
branch: a request-layer exception, or a status `raise_for_status` rejects. -/
def fetchFailed : FetchResult → Bool
  | .requestException _ => true
  | .ok resp => badStatus resp.status

/-- The parsed document of a successful fetch. -/
def fetchDoc : FetchResult → HForest
  | .requestException _ => .nil
  | .ok resp => resp.doc

/-- C3: for every URL and every HTTP-layer outcome, the extraction tool
returns: on any network-layer or HTTP-status failure, a string prefixed
with the failure marker (naming the URL) and carrying the exception
detail; otherwise the extracted, cleaned text.  It is a total function, so
nothing is thrown past its boundary. -/
theorem c3_browse_failure_contract (url : List Char) (fetch : FetchResult) :
    (fetchFailed fetch = true →
      ("❌ Error browsing ".toList ++ url ++ ": ".toList) <+:
          browse_website url fetch ∧
      ∃ detail, browse_website url fetch = browseErrMsg url detail) ∧
    (fetchFailed fetch = false →
      browse_website url fetch = successText (fetchDoc fetch)) := by
  cases fetch with
  | requestException e =>
      refine ⟨fun _ => ⟨⟨e, ?_⟩, ⟨e, rfl⟩⟩, fun h => by simp [fetchFailed] at h⟩
      simp [browse_website, browseErrMsg, List.append_assoc]
  | ok resp =>
      cases hb : badStatus resp.status with
      | true =>
          refine ⟨fun _ => ⟨⟨httpErrorDetail resp.status resp.reason url, ?_⟩,
            ⟨httpErrorDetail resp.status resp.reason url, ?_⟩⟩,
            fun h => by simp [fetchFailed, hb] at h⟩
          · simp [browse_website, hb, browseErrMsg, List.append_assoc]
          · simp [browse_website, hb]
      | false =>
          refine ⟨fun h => by simp [fetchFailed, hb] at h, fun _ => ?_⟩
          simp [browse_website, hb, fetchDoc]

theorem c3_witness :
    (("❌ Error browsing ".toList ++ "u".toList ++ ": ".toList) <+:
        browse_website "u".toList (.requestException "boom".toList) ∧
      ∃ detail, browse_website "u".toList (.requestException "boom".toList) =
        browseErrMsg "u".toList detail) ∧
    browse_website "u".toList (.ok ⟨200, "OK".toList, .text "hi".toList .nil⟩) =
      successText (fetchDoc (.ok ⟨200, "OK".toList, .text "hi".toList .nil⟩)) :=
  ⟨(c3_browse_failure_contract "u".toList _).1 rfl,
   (c3_browse_failure_contract "u".toList _).2 (by decide)⟩

/-- C10: the 8000-character bound applies only to the success branch — any
successful fetch-and-parse yields at most 8000 characters — while a
failure-branch result, on either failure route (a request-layer exception,
or a response whose status `raise_for_status` rejects), is the marker
string embedding the full URL and the exception detail untruncated, its
length being exactly 19 plus the lengths of both, so it can exceed 8000
characters. -/
theorem c10_bound_scope (url : List Char) (fetch : FetchResult) :
    (∀ resp, fetch = .ok resp → badStatus resp.status = false →
      (browse_website url fetch).length ≤ 8000) ∧
    (∀ e, fetch = .requestException e →
      browse_website url fetch =
        "❌ Error browsing ".toList ++ url ++ ": ".toList ++ e ∧
      (browse_website url fetch).length = 19 + url.length + e.length) ∧
    (∀ resp, fetch = .ok resp → badStatus resp.status = true →
      browse_website url fetch =
        "❌ Error browsing ".toList ++ url ++ ": ".toList ++
          httpErrorDetail resp.status resp.reason url ∧
      (browse_website url fetch).length =
        19 + url.length +
          (httpErrorDetail resp.status resp.reason url).length) := by
  have h17 : ("❌ Error browsing ".toList).length = 17 := by decide
  have h2 : (": ".toList).length = 2 := by decide
  refine ⟨?_, ?_, ?_⟩
  · intro resp h hb
    subst h
    simp only [browse_website, hb, Bool.false_eq_true, if_false, successText,
      limitText]
    split
    · rw [List.length_take]
      omega
    · omega
  · intro e h
    subst h
    refine ⟨by simp [browse_website, browseErrMsg, List.append_assoc], ?_⟩
    simp [browse_website, browseErrMsg, List.length_append, h17, h2]
    omega
  · intro resp h hb
    subst h
    refine ⟨by simp [browse_website, hb, browseErrMsg, List.append_assoc], ?_⟩
    simp [browse_website, hb, browseErrMsg, List.length_append, h17, h2]
    omega

theorem c10_witness :
    (browse_website "u".toList
      (.ok ⟨200, "OK".toList, .text "hi".toList .nil⟩)).length ≤ 8000 ∧
    8000 < (browse_website (List.replicate 8000 'a')
      (.requestException "x".toList)).length ∧
    8000 < (browse_website (List.replicate 8000 'a')
      (.ok ⟨404, "Not Found".toList, .nil⟩)).length := by
  refine ⟨?_, ?_, ?_⟩
  · exact (c10_bound_scope "u".toList _).1 _ rfl (by decide)
  · have h := ((c10_bound_scope (List.replicate 8000 'a')
      (.requestException "x".toList)).2.1 "x".toList rfl).2
    rw [h, List.length_replicate]
    have hx : ("x".toList).length = 1 := by decide
    omega
  · have h := ((c10_bound_scope (List.replicate 8000 'a')
      (.ok ⟨404, "Not Found".toList, .nil⟩)).2.2
        ⟨404, "Not Found".toList, .nil⟩ rfl (by decide)).2
    rw [h, List.length_replicate]
    omega

/-! ## C5: the truncation step -/

/-- C5: whenever the cleaned extracted text of a successfully fetched
document is longer than 8000 characters, the tool's return value has
length exactly 8000 and is a prefix of the cleaned text; at 8000
characters or less, the cleaned text is returned unmodified.  (The log
note accompanying truncation is observability only and is not modelled.) -/
theorem c5_truncation_bound (url : List Char) (resp : FetchResponse)
    (h : badStatus resp.status = false) :
    (8000 < (cleanText (getTextF (pruneF resp.doc))).length →
      (browse_website url (.ok resp)).length = 8000 ∧
      browse_website url (.ok resp) <+:
        cleanText (getTextF (pruneF resp.doc))) ∧
    ((cleanText (getTextF (pruneF resp.doc))).length ≤ 8000 →
      browse_website url (.ok resp) =
        cleanText (getTextF (pruneF resp.doc))) := by
  simp only [browse_website, h, Bool.false_eq_true, if_false, successText,
    limitText]
  constructor
  · intro hlen
    rw [if_pos hlen]
    refine ⟨?_, List.take_prefix _ _⟩
    rw [List.length_take]
    omega
  · intro hlen
    rw [if_neg (by omega)]

/-! ### A concrete long document for the C5 witness -/

theorem dropWhile_plain (p : Char → Bool) (l : List Char)
    (h : ∀ c ∈ l, p c = false) : l.dropWhile p = l := by
  cases l with
  | nil => rfl
  | cons a t =>
      rw [List.dropWhile_cons, h a (by simp)]
      simp

theorem strip_plain (l : List Char) (h : ∀ c ∈ l, isPySpace c = false) :
    strip l = l := by
  unfold strip
  rw [dropWhile_plain _ _ h, dropWhile_plain, List.reverse_reverse]
  intro c hc
  exact h c (List.mem_reverse.mp hc)

theorem splitAux_plain :
    ∀ (l acc : List Char), (∀ c ∈ l, isLineBreak c = false) →
      splitAux acc l = [acc.reverse ++ l]
  | [], acc, _ => by simp [splitAux]
  | [c], acc, h => by
      have hc : isLineBreak c = false := h c (by simp)
      simp [splitAux, hc]
  | c :: d :: rest, acc, h => by
      have hc : isLineBreak c = false := h c (by simp)
      have ih := splitAux_plain (d :: rest) (c :: acc)
        (fun x hx => h x (List.mem_cons_of_mem c hx))
      simp [splitAux, hc, ih, List.append_assoc]

theorem splitOnDS_plain :
    ∀ l : List Char, (∀ c ∈ l, c ≠ ' ') → splitOnDS l = [l]
  | [], _ => rfl
  | [_], _ => rfl
  | c :: d :: rest, h => by
      have hc : ¬(c = ' ' ∧ d = ' ') := fun hcd => h c (by simp) hcd.1
      have ih := splitOnDS_plain (d :: rest)
        (fun x hx => h x (List.mem_cons_of_mem c hx))
      simp [splitOnDS, hc, ih, consHead]

/-- A string with no line break, no whitespace and no space survives the
cleaning pipeline unchanged. -/
theorem cleanText_plain (l : List Char) (hne : l ≠ [])
    (h1 : ∀ c ∈ l, isLineBreak c = false)
    (h2 : ∀ c ∈ l, isPySpace c = false) : cleanText l = l := by
  have hsp : ∀ c ∈ l, c ≠ ' ' := by
    intro c hc he
    have := h2 c hc
    rw [he] at this
    exact absurd this (by decide)
  have hlines : splitlines l = [l] := by
    cases l with
    | nil => exact absurd rfl hne
    | cons a t =>
        rw [splitlines, splitAux_plain _ _ h1]
        rfl
  have hempty : l.isEmpty = false := by
    cases l with
    | nil => exact absurd rfl hne
    | cons a t => rfl
  simp only [cleanText, hlines, List.map_cons, List.map_nil,
    strip_plain l h2, splitOnDS_plain l hsp, List.flatten,
    List.append_nil, List.filter, hempty, Bool.not_false]
  simp [List.intercalate]

def bigText : List Char := List.replicate 8001 'a'

def bigResp : FetchResponse := ⟨200, "OK".toList, .text bigText .nil⟩

theorem cleanText_big :
    cleanText (getTextF (pruneF bigResp.doc)) = bigText := by
  have hdoc : getTextF (pruneF bigResp.doc) = bigText := by
    simp [bigResp, pruneF, getTextF]
  rw [hdoc]
  refine cleanText_plain _ ?_ ?_ ?_
  · intro h
    have hlen := congrArg List.length h
    unfold bigText at hlen
    rw [List.length_replicate] at hlen
    simp at hlen
  · intro c hc
    rw [List.eq_of_mem_replicate (show c ∈ List.replicate 8001 'a' from hc)]
    decide
  · intro c hc
    rw [List.eq_of_mem_replicate (show c ∈ List.replicate 8001 'a' from hc)]
    decide

theorem c5_witness :
    (browse_website "u".toList (.ok bigResp)).length = 8000 := by
  have h := (c5_truncation_bound "u".toList bigResp (by decide)).1
  refine (h ?_).1
  rw [cleanText_big]
  show 8000 < (List.replicate 8001 'a').length
  rw [List.length_replicate]
  omega

/-! ## C7: script and style content is excluded -/

/-- Decomposing every script/style element and then collecting text is the
same as collecting text while skipping script/style subtrees outright. -/
theorem getText_prune : ∀ f : HForest, getTextF (pruneF f) = getTextSkipF f
  | .nil => rfl
  | .text s rest => by
      simp [pruneF, getTextF, getTextSkipF, getText_prune rest]
  | .elem tag cs rest => by
      cases ht : isStripTag tag with
      | true => simp [pruneF, getTextSkipF, ht, getText_prune rest]
      | false =>
          simp [pruneF, getTextF, getTextSkipF, ht, getText_prune cs,
            getText_prune rest]

/-- C7: for every successfully fetched document containing script or style
elements, the text returned by the extraction tool excludes their content
entirely: the result coincides with the pipeline run over a collector that
never descends into a script or style subtree, so no character of such an
element's content can reach the output. -/
theorem c7_script_style_excluded (url : List Char) (resp : FetchResponse)
    (h : badStatus resp.status = false) :
    browse_website url (.ok resp) =
      limitText (cleanText (getTextSkipF resp.doc)) := by
  simp [browse_website, h, successText, getText_prune]

theorem c7_witness :
    browse_website "u".toList
        (.ok ⟨200, "OK".toList,
          .elem "script".toList (.text "EVIL".toList .nil)
            (.text "hello".toList .nil)⟩) =
      limitText (cleanText (getTextSkipF
        (.elem "script".toList (.text "EVIL".toList .nil)
          (.text "hello".toList .nil)))) ∧
    browse_website "u".toList
        (.ok ⟨200, "OK".toList,
          .elem "script".toList (.text "EVIL".toList .nil)
            (.text "hello".toList .nil)⟩) = "hello".toList :=
  ⟨c7_script_style_excluded "u".toList _ (by decide), by decide⟩

/-! ## C9: what the whitespace cleaning does and does not collapse -/

/-- Two adjacent whitespace characters — a whitespace run the claim says
cannot survive. -/
def hasWsRun : List Char → Bool
  | a :: b :: rest => (isPySpace a && isPySpace b) || hasWsRun (b :: rest)
  | _ => false

/-- C9 counterexample: a successfully fetched document whose text holds a
tab run is returned verbatim — the cleaning only removes line boundaries
and two-space separators, so a multi-whitespace run of tabs remains in the
output. -/
theorem c9_counterexample :
    browse_website "u".toList
        (.ok ⟨200, "OK".toList, .text "a\t\tb".toList .nil⟩) =
      "a\t\tb".toList ∧
    hasWsRun "a\t\tb".toList = true := by
  decide

/-- Adjacent characters that are not both plain spaces. -/
def spacedApart (a b : Char) : Prop := ¬(a = ' ' ∧ b = ' ')

theorem spacedApart_symm (a b : Char) (h : spacedApart a b) :
    spacedApart b a := fun hc => h ⟨hc.2, hc.1⟩

theorem chain'_dropWhile {R : Char → Char → Prop} (p : Char → Bool)
    (l : List Char) (h : List.Chain' R l) :
    List.Chain' R (l.dropWhile p) := by
  obtain ⟨t, ht⟩ := List.dropWhile_suffix (l := l) p
  rw [← ht] at h
  exact (List.chain'_append.mp h).2.1

theorem chain'_rev {R : Char → Char → Prop}
    (hsym : ∀ a b, R a b → R b a) (l : List Char)
    (h : List.Chain' R l) : List.Chain' R l.reverse := by
  rw [List.chain'_reverse]
  exact h.imp (fun a b hab => hsym a b hab)

theorem chain'_strip {R : Char → Char → Prop}
    (hsym : ∀ a b, R a b → R b a) (l : List Char)
    (h : List.Chain' R l) : List.Chain' R (strip l) := by
  unfold strip
  exact chain'_rev hsym _ (chain'_dropWhile _ _
    (chain'_rev hsym _ (chain'_dropWhile _ _ h)))

theorem mem_strip (l : List Char) (c : Char) (hc : c ∈ strip l) : c ∈ l := by
  unfold strip at hc
  rw [List.mem_reverse] at hc
  have h1 : c ∈ (l.dropWhile isPySpace).reverse :=
    List.Sublist.subset (List.dropWhile_sublist ..) hc
  rw [List.mem_reverse] at h1
  exact List.Sublist.subset (List.dropWhile_sublist ..) h1

theorem head_dropWhile (p : Char → Bool) :
    ∀ (l : List Char) (x : Char),
      (l.dropWhile p).head? = some x → p x = false
  | [], x, h => by simp at h
  | a :: t, x, h => by
      rw [List.dropWhile_cons] at h
      cases hp : p a with
      | true =>
          rw [hp] at h
          simp only [if_true] at h
          exact head_dropWhile p t x h
      | false =>
          rw [hp] at h
          simp only [Bool.false_eq_true, if_false, List.head?_cons,
            Option.some.injEq] at h
          rw [← h]
          exact hp

theorem head_of_pre {l₁ l₂ : List Char} {x : Char} (h : l₁ <+: l₂)
    (hx : l₁.head? = some x) : l₂.head? = some x := by
  obtain ⟨t, rfl⟩ := h
  cases l₁ with
  | nil => cases hx
  | cons a l => simpa using hx

/-- The stripped string sits at the front of the leading-whitespace-free
string. -/
theorem strip_pre (l : List Char) : strip l <+: l.dropWhile isPySpace := by
  unfold strip
  obtain ⟨t, ht⟩ :=
    List.dropWhile_suffix (l := (l.dropWhile isPySpace).reverse) isPySpace
  refine ⟨t.reverse, ?_⟩
  rw [← List.reverse_append, ht, List.reverse_reverse]

theorem strip_head (l : List Char) (x : Char)
    (h : (strip l).head? = some x) : isPySpace x = false :=
  head_dropWhile isPySpace l x (head_of_pre (strip_pre l) h)

theorem strip_last (l : List Char) (x : Char)
    (h : (strip l).getLast? = some x) : isPySpace x = false := by
  unfold strip at h
  rw [List.getLast?_reverse] at h
  exact head_dropWhile isPySpace _ x h

theorem splitOnDS_ne_nil : ∀ l : List Char, splitOnDS l ≠ []
  | [] => by simp [splitOnDS]
  | [c] => by simp [splitOnDS]
  | c :: d :: rest => by
      by_cases h : c = ' ' ∧ d = ' '
      · simp [splitOnDS, h]
      · cases hs : splitOnDS (d :: rest) with
        | nil => simp [splitOnDS, h, hs, consHead]
        | cons q qs => simp [splitOnDS, h, hs, consHead]

/-- The first piece of a two-space split is empty or starts where the line
starts. -/
theorem splitOnDS_head :
    ∀ (l q : List Char) (qs : List (List Char)),
      splitOnDS l = q :: qs → q = [] ∨ q.head? = l.head?
  | [], q, qs, h => by
      injection h with h1 _
      exact Or.inl h1.symm
  | [c], q, qs, h => by
      injection h with h1 _
      rw [← h1]
      exact Or.inr rfl
  | c :: d :: rest, q, qs, h => by
      by_cases hcd : c = ' ' ∧ d = ' '
      · have h' : ([] : List Char) :: splitOnDS rest = q :: qs := by
          simpa [splitOnDS, hcd] using h
        injection h' with h1 _
        exact Or.inl h1.symm
      · obtain ⟨q', qs', hs⟩ : ∃ q' qs', splitOnDS (d :: rest) = q' :: qs' := by
          cases hsp : splitOnDS (d :: rest) with
          | nil => exact absurd hsp (splitOnDS_ne_nil _)
          | cons a b => exact ⟨a, b, rfl⟩
        have h' : (c :: q') :: qs' = q :: qs := by
          simpa [splitOnDS, hcd, hs, consHead] using h
        injection h' with h1 _
        rw [← h1]
        exact Or.inr rfl

/-- No piece of a two-space split contains two adjacent plain spaces. -/
theorem splitOnDS_chain :
    ∀ l : List Char, ∀ p ∈ splitOnDS l, List.Chain' spacedApart p
  | [], p, hp => by
      simp [splitOnDS] at hp
      rw [hp]
      exact List.chain'_nil
  | [c], p, hp => by
      simp [splitOnDS] at hp
      rw [hp]
      exact List.chain'_singleton c
  | c :: d :: rest, p, hp => by
      by_cases hcd : c = ' ' ∧ d = ' '
      · rw [show splitOnDS (c :: d :: rest) = [] :: splitOnDS rest from by
          simp [splitOnDS, hcd]] at hp
        rcases List.mem_cons.mp hp with h | h
        · rw [h]
          exact List.chain'_nil
        · exact splitOnDS_chain rest p h
      · obtain ⟨q', qs', hs⟩ : ∃ q' qs', splitOnDS (d :: rest) = q' :: qs' := by
          cases hsp : splitOnDS (d :: rest) with
          | nil => exact absurd hsp (splitOnDS_ne_nil _)
          | cons a b => exact ⟨a, b, rfl⟩
        rw [show splitOnDS (c :: d :: rest) = (c :: q') :: qs' from by
          simp [splitOnDS, hcd, hs, consHead]] at hp
        rcases List.mem_cons.mp hp with h | h
        · rw [h, List.chain'_cons']
          constructor
          · intro y hy
            rcases splitOnDS_head (d :: rest) q' qs' hs with hq | hq
            · rw [hq] at hy
              simp at hy
            · rw [hq] at hy
              have hyd : y = d := by simpa [eq_comm] using hy
              rw [hyd]
              exact hcd
          · exact splitOnDS_chain (d :: rest) q'
              (by rw [hs]; exact List.mem_cons_self _ _)
        · exact splitOnDS_chain (d :: rest) p
            (by rw [hs]; exact List.mem_cons_of_mem _ h)

/-- Every character of every piece comes from the split line. -/
theorem splitOnDS_subset :
    ∀ l : List Char, ∀ p ∈ splitOnDS l, ∀ c ∈ p, c ∈ l
  | [], p, hp, x, hx => by
      simp [splitOnDS] at hp
      rw [hp] at hx
      cases hx
  | [c], p, hp, x, hx => by
      simp [splitOnDS] at hp
      rw [hp] at hx
      simpa using hx
  | c :: d :: rest, p, hp, x, hx => by
      by_cases hcd : c = ' ' ∧ d = ' '
      · rw [show splitOnDS (c :: d :: rest) = [] :: splitOnDS rest from by
          simp [splitOnDS, hcd]] at hp
        rcases List.mem_cons.mp hp with h | h
        · rw [h] at hx
          cases hx
        · exact List.mem_cons_of_mem c
            (List.mem_cons_of_mem d (splitOnDS_subset rest p h x hx))
      · obtain ⟨q', qs', hs⟩ : ∃ q' qs', splitOnDS (d :: rest) = q' :: qs' := by
          cases hsp : splitOnDS (d :: rest) with
          | nil => exact absurd hsp (splitOnDS_ne_nil _)
          | cons a b => exact ⟨a, b, rfl⟩
        rw [show splitOnDS (c :: d :: rest) = (c :: q') :: qs' from by
          simp [splitOnDS, hcd, hs, consHead]] at hp
        rcases List.mem_cons.mp hp with h | h
        · rw [h] at hx
          rcases List.mem_cons.mp hx with h1 | h1
          · rw [h1]
            exact List.mem_cons_self _ _
          · refine List.mem_cons_of_mem c
              (splitOnDS_subset (d :: rest) q' ?_ x h1)
            rw [hs]
            exact List.mem_cons_self _ _
        · refine List.mem_cons_of_mem c
            (splitOnDS_subset (d :: rest) p ?_ x hx)
          rw [hs]
          exact List.mem_cons_of_mem _ h

/-- Every line produced by the split-lines worker is free of line-break
characters, provided the accumulator already is. -/
theorem splitAux_noLB :
    ∀ (l acc : List Char), (∀ c ∈ acc, isLineBreak c = false) →
      ∀ line ∈ splitAux acc l, ∀ ch ∈ line, isLineBreak ch = false
  | [], acc, hacc => by
      intro line hline ch hch
      simp [splitAux] at hline
      rw [hline] at hch
      exact hacc ch (List.mem_reverse.mp hch)
  | [c], acc, hacc => by
      intro line hline ch hch
      cases hc : isLineBreak c with
      | true =>
          rw [show splitAux acc [c] = [acc.reverse] from by
            simp [splitAux, hc]] at hline
          simp at hline
          rw [hline] at hch
          exact hacc ch (List.mem_reverse.mp hch)
      | false =>
          rw [show splitAux acc [c] = [(c :: acc).reverse] from by
            simp [splitAux, hc]] at hline
          simp at hline
          rw [hline] at hch
          rcases List.mem_append.mp hch with h | h
          · exact hacc ch (List.mem_reverse.mp h)
          · have hcc : ch = c := by simpa using h
            rw [hcc]
            exact hc
  | c :: d :: rest, acc, hacc => by
      intro line hline ch hch
      cases hc : isLineBreak c with
      | false =>
          rw [show splitAux acc (c :: d :: rest) =
              splitAux (c :: acc) (d :: rest) from by
            simp [splitAux, hc]] at hline
          refine splitAux_noLB (d :: rest) (c :: acc) ?_ line hline ch hch
          intro x hx
          rcases List.mem_cons.mp hx with h | h
          · rw [h]
            exact hc
          · exact hacc x h
      | true =>
          by_cases hcd : c = '\r' ∧ d = '\n'
          · have hr : isLineBreak '\r' = true := by decide
            have hn : isLineBreak '\n' = true := by decide
            cases rest with
            | nil =>
                rw [show splitAux acc [c, d] = [acc.reverse] from by
                  simp [splitAux, hcd.1, hcd.2, hr, hn]] at hline
                simp at hline
                rw [hline] at hch
                exact hacc ch (List.mem_reverse.mp hch)
            | cons r rs =>
                rw [show splitAux acc (c :: d :: r :: rs) =
                    acc.reverse :: splitAux [] (r :: rs) from by
                  simp [splitAux, hcd.1, hcd.2, hr, hn]] at hline
                rcases List.mem_cons.mp hline with h | h
                · rw [h] at hch
                  exact hacc ch (List.mem_reverse.mp hch)
                · exact splitAux_noLB (r :: rs) [] (by simp) line h ch hch
          · rw [show splitAux acc (c :: d :: rest) =
                acc.reverse :: splitAux [] (d :: rest) from by
              simp [splitAux, hc, hcd]] at hline
            rcases List.mem_cons.mp hline with h | h
            · rw [h] at hch
              exact hacc ch (List.mem_reverse.mp hch)
            · exact splitAux_noLB (d :: rest) [] (by simp) line h ch hch

theorem splitlines_noLB (t : List Char) :
    ∀ line ∈ splitlines t, ∀ ch ∈ line, isLineBreak ch = false := by
  cases t with
  | nil =>
      intro line hline
      simp [splitlines] at hline
  | cons a rest => exact splitAux_noLB (a :: rest) [] (by simp)

theorem intercalate_one (s x : List Char) : List.intercalate s [x] = x := by
  simp [List.intercalate]

theorem intercalate_two (s a b : List Char) (l : List (List Char)) :
    List.intercalate s (a :: b :: l) =
      a ++ (s ++ List.intercalate s (b :: l)) := by
  simp [List.intercalate, List.intersperse]

theorem head?_append_left (l₁ l₂ : List Char) (x : Char)
    (h : l₁.head? = some x) : (l₁ ++ l₂).head? = some x := by
  cases l₁ with
  | nil => cases h
  | cons a t => simpa using h

theorem intercalate_head (b : List Char) (l : List (List Char)) (x : Char)
    (hb : b.head? = some x) :
    (List.intercalate [' '] (b :: l)).head? = some x := by
  cases l with
  | nil =>
      rw [intercalate_one]
      exact hb
  | cons c cs =>
      rw [intercalate_two]
      exact head?_append_left _ _ _ hb

/-- What holds of each non-empty stripped phrase before the single-space
join: non-empty, no line breaks, no adjacent double space, and
non-whitespace edge characters. -/
def GoodChunk (c : List Char) : Prop :=
  c ≠ [] ∧ (∀ ch ∈ c, isLineBreak ch = false) ∧
  List.Chain' spacedApart c ∧
  (∀ ch, c.head? = some ch → isPySpace ch = false) ∧
  (∀ ch, c.getLast? = some ch → isPySpace ch = false)

/-- Joining good chunks with single spaces yields a string with no
line-break character and no two adjacent plain spaces. -/
theorem joinGood :
    ∀ chunks : List (List Char), (∀ c ∈ chunks, GoodChunk c) →
      (∀ ch ∈ List.intercalate [' '] chunks, isLineBreak ch = false) ∧
      List.Chain' spacedApart (List.intercalate [' '] chunks)
  | [], _ => by
      constructor
      · intro ch hch
        simp [List.intercalate] at hch
      · simp [List.intercalate]
  | [c], h => by
      rw [intercalate_one]
      exact ⟨(h c (by simp)).2.1, (h c (by simp)).2.2.1⟩
  | a :: b :: l, h => by
      rw [intercalate_two]
      have ha := h a (by simp)
      have hbg := h b (by simp)
      have ih := joinGood (b :: l) (fun c hc => h c (List.mem_cons_of_mem a hc))
      obtain ⟨bh, hbh⟩ : ∃ bh, b.head? = some bh := by
        cases hb0 : b with
        | nil => exact absurd hb0 hbg.1
        | cons x xs => exact ⟨x, rfl⟩
      have hbs : isPySpace bh = false := hbg.2.2.2.1 bh hbh
      have hhead : (List.intercalate [' '] (b :: l)).head? = some bh :=
        intercalate_head b l bh hbh
      constructor
      · intro ch hch
        rcases List.mem_append.mp hch with h1 | h1
        · exact ha.2.1 ch h1
        · rcases List.mem_append.mp h1 with h2 | h2
          · have hsp : ch = ' ' := by simpa using h2
            rw [hsp]
            decide
          · exact ih.1 ch h2
      · rw [List.chain'_append]
        refine ⟨ha.2.2.1, ?_, ?_⟩
        · rw [List.chain'_append]
          refine ⟨List.chain'_singleton _, ih.2, ?_⟩
          intro x hx y hy
          rw [hhead] at hy
          have hy' : y = bh := by simpa [eq_comm] using hy
          intro hcon
          rw [hy'] at hcon
          rw [hcon.2] at hbs
          exact absurd hbs (by decide)
        · intro x hx y hy
          have hxs : isPySpace x = false :=
            ha.2.2.2.2 x (by simpa [eq_comm] using hx)
          intro hcon
          rw [hcon.1] at hxs
          exact absurd hxs (by decide)

/-- Every chunk entering the final join of the cleaning pipeline is good. -/
theorem cleanText_good (t : List Char) :
    (∀ ch ∈ cleanText t, isLineBreak ch = false) ∧
    List.Chain' spacedApart (cleanText t) := by
  have hrw : cleanText t =
      List.intercalate [' ']
        (((((((splitlines t).map strip).map splitOnDS).flatten).map
          strip).filter (fun c => !c.isEmpty))) := rfl
  rw [hrw]
  apply joinGood
  intro c hc
  rw [List.mem_filter] at hc
  obtain ⟨hc1, hc2⟩ := hc
  obtain ⟨piece, hpiece, rfl⟩ := List.mem_map.mp hc1
  obtain ⟨pieces, hpieces, hpmem⟩ := List.mem_flatten.mp hpiece
  obtain ⟨line', hline', rfl⟩ := List.mem_map.mp hpieces
  obtain ⟨line, hline, rfl⟩ := List.mem_map.mp hline'
  refine ⟨?_, ?_, ?_, ?_, ?_⟩
  · intro he
    rw [he] at hc2
    simp at hc2
  · intro ch hch
    exact splitlines_noLB t line hline ch
      (mem_strip _ _ (splitOnDS_subset _ _ hpmem ch (mem_strip _ _ hch)))
  · exact chain'_strip spacedApart_symm _ (splitOnDS_chain _ _ hpmem)
  · exact strip_head piece
  · exact strip_last piece

/-- C9 amended: the text returned for a successfully fetched document is
one flat string containing no line-break character and no two adjacent
plain spaces — line boundaries and two-space separators are collapsed into
single space separators.  (Runs of other whitespace characters such as
tabs survive; see the counterexample.) -/
theorem c9_collapse_amended (url : List Char) (resp : FetchResponse)
    (h : badStatus resp.status = false) :
    (∀ ch ∈ browse_website url (.ok resp), isLineBreak ch = false) ∧
    List.Chain' spacedApart (browse_website url (.ok resp)) := by
  have hg := cleanText_good (getTextF (pruneF resp.doc))
  have hb : browse_website url (.ok resp) =
      limitText (cleanText (getTextF (pruneF resp.doc))) := by
    simp [browse_website, h, successText]
  rw [hb]
  unfold limitText
  split
  · constructor
    · intro ch hch
      exact hg.1 ch (List.mem_of_mem_take hch)
    · have h2 := hg.2
      rw [← List.take_append_drop 8000
        (cleanText (getTextF (pruneF resp.doc)))] at h2
      exact (List.chain'_append.mp h2).1
  · exact hg

theorem c9_witness :
    (∀ ch ∈ browse_website "u".toList
        (.ok ⟨200, "OK".toList, .text "x y".toList .nil⟩),
      isLineBreak ch = false) ∧
    List.Chain' spacedApart (browse_website "u".toList
      (.ok ⟨200, "OK".toList, .text "x y".toList .nil⟩)) :=
  c9_collapse_amended "u".toList _ (by decide)
